import Mathlib

/-!
Verification of the static router-coverage tool `contract_coverage.py`.

Strings scanned by the tool are modelled as lists of characters, file-system
paths as lists of path segments, sets as `Finset`, and the floating-point
percentage as a rational number.  Every definition below is a direct
translation of the corresponding Python function; helper definitions mirror
contiguous blocks of the Python source.
-/

namespace ContractCoverage

/-- Argument strings are modelled as lists of characters. -/
abbrev Str := List Char

/-- One step of the character scanner shared by `_split_top_level_comma` and
`_extract_two_arg_calls`: the state is (parenthesis depth, inside-string flag,
escape flag); a backslash inside a string escapes the following character, and
the depth decrement saturates at zero (Python `max(0, depth - 1)`). -/
def stateStep : Nat × Bool × Bool → Char → Nat × Bool × Bool
  | (d, true, true), _ => (d, true, false)
  | (d, true, false), c =>
      if c = '\\' then (d, true, true)
      else if c = '"' then (d, false, false)
      else (d, true, false)
  | (d, false, _), c =>
      if c = '"' then (d, true, false)
      else if c = '(' then (d + 1, false, false)
      else if c = ')' then (d - 1, false, false)
      else (d, false, false)

/-- Whether character `c`, read in scanner state `st`, is a comma at
parenthesis depth zero outside any string literal. -/
def isTopComma (st : Nat × Bool × Bool) (c : Char) : Bool :=
  !st.2.1 && c == ',' && st.1 == 0

/-- The recursive worker of `_split_top_level_comma`. -/
def splitGo : Str → Nat × Bool × Bool → Option (Str × Str)
  | [], _ => none
  | c :: cs, st =>
      if isTopComma st c then some ([], cs)
      else
        match splitGo cs (stateStep st c) with
        | none => none
        | some (l, r) => some (c :: l, r)

/-- Python `_split_top_level_comma`: split an argument string at the first
comma at parenthesis depth zero outside any string literal. -/
def _split_top_level_comma (args : Str) : Option (Str × Str) :=
  splitGo args (0, false, false)

/-- The scanner state reached after reading the characters `cs` from state
`st`. -/
def scanState (st : Nat × Bool × Bool) (cs : Str) : Nat × Bool × Bool :=
  cs.foldl stateStep st

/-- Whether index `i` of `cs`, scanned from state `st`, holds a comma at
parenthesis depth zero outside any string literal. -/
def qualComma (st : Nat × Bool × Bool) (cs : Str) (i : Nat) : Bool :=
  decide (i < cs.length) && isTopComma (scanState st (cs.take i)) (cs.getD i ' ')

/-- Whether index `i` of the argument string `cs` holds a comma at parenthesis
depth zero outside any string literal (scanning from the initial state). -/
def qualB (cs : Str) (i : Nat) : Bool :=
  qualComma (0, false, false) cs i

/-- Python regex class `\s`: the characters skipped before a string literal. -/
def isWS (c : Char) : Bool :=
  c == ' ' || c == '\t' || c == '\n' || c == '\r' || c == '\x0B' || c == '\x0C'

/-- The body of the regex `"((?:\\.|[^"\\])*)"`: parse the raw contents of a
double-quoted literal, returning the raw body and the text after the closing
quote. -/
def parseLitBody : Str → Option (Str × Str)
  | [] => none
  | '"' :: rest => some ([], rest)
  | '\\' :: c :: rest =>
      match parseLitBody rest with
      | none => none
      | some (b, r) => some ('\\' :: c :: b, r)
  | c :: rest =>
      match parseLitBody rest with
      | none => none
      | some (b, r) => some (c :: b, r)

/-- Python `raw.replace("\\\\", "\\")`: left-to-right non-overlapping
replacement of a double backslash by a single one. -/
def replaceBB : Str → Str
  | '\\' :: '\\' :: rest => '\\' :: replaceBB rest
  | c :: rest => c :: replaceBB rest
  | [] => []

/-- Python `raw.replace('\\"', '"')`: left-to-right non-overlapping
replacement of an escaped quote by a quote. -/
def replaceBQ : Str → Str
  | '\\' :: '"' :: rest => '"' :: replaceBQ rest
  | c :: rest => c :: replaceBQ rest
  | [] => []

/-- Python `_unescape_rust_string`. -/
def _unescape_rust_string (s : Str) : Str :=
  replaceBQ (replaceBB s)

/-- Python `_extract_string_literal`: match a leading (whitespace-preceded)
double-quoted literal and decode its escapes. -/
def _extract_string_literal (expr : Str) : Option Str :=
  match expr.dropWhile isWS with
  | '"' :: rest =>
      match parseLitBody rest with
      | none => none
      | some (b, _) => some (_unescape_rust_string b)
  | _ => none

/-- The inner loop of `_extract_two_arg_calls`: scan forward from an opening
parenthesis, tracking depth and string context, until the depth returns to
zero or the text ends; returns the number of characters consumed and whether
the scan was closed by a parenthesis (rather than by end of input). -/
def scanArgs : Str → Nat × Bool × Bool → Nat × Bool
  | _, (0, _, _) => (0, true)
  | [], _ => (0, false)
  | c :: cs, st =>
      let r := scanArgs cs (stateStep st c)
      (r.1 + 1, r.2)

/-- The outer loop of `_extract_two_arg_calls`, walking the text left to
right.  (For an empty needle the Python loop never terminates; the embedding
returns the empty list in that case, which no claim exercises.) -/
def extractGo (needle : Str) (s : Str) : List (Str × Str) :=
  if hn : needle = [] then []
  else if hs : s = [] then []
  else if needle.isPrefixOf s then
    let t := s.drop needle.length
    let r := scanArgs t (1, false, false)
    (match _split_top_level_comma (t.take (r.1 - 1)) with
     | some p => [p]
     | none => []) ++ extractGo needle (t.drop r.1)
  else extractGo needle s.tail
termination_by s.length
decreasing_by
  · have h1 : 0 < needle.length := List.length_pos.mpr hn
    have h2 : 0 < s.length := List.length_pos.mpr hs
    simp only [List.length_drop]
    omega
  · have h2 : 0 < s.length := List.length_pos.mpr hs
    simp only [List.length_tail]
    omega

/-- Python `_extract_two_arg_calls`: collect, for every occurrence of the
needle, the two top-level comma-separated arguments of the following balanced
parenthesis group. -/
def _extract_two_arg_calls (text needle : Str) : List (Str × Str) :=
  extractGo needle text

/-- Python `path.startswith("/")`. -/
def startsWithSlash : Str → Bool
  | [] => false
  | c :: _ => c == '/'

/-- Python `path.endswith("/")`. -/
def endsWithSlash (s : Str) : Bool :=
  startsWithSlash s.reverse

/-- Python `path.rstrip("/")`: remove every trailing slash. -/
def rstripSlash (s : Str) : Str :=
  (s.reverse.dropWhile (fun c => c == '/')).reverse

/-- The `"/" + path` adjustment both branches of `_join_paths` apply to an
argument without a leading slash. -/
def leadSlash (p : Str) : Str :=
  if startsWithSlash p then p else '/' :: p

/-- The empty-prefix branch of `_join_paths`: normalize the path alone. -/
def norm1 (path : Str) : Str :=
  if path = [] then ['/']
  else if leadSlash path ≠ ['/'] ∧ endsWithSlash (leadSlash path) then
    rstripSlash (leadSlash path)
  else leadSlash path

/-- The prefix normalization of `_join_paths`: ensure a leading slash and drop
one trailing slash unless the prefix is exactly a slash. -/
def normPre (pre : Str) : Str :=
  if leadSlash pre ≠ ['/'] ∧ endsWithSlash (leadSlash pre) then
    (leadSlash pre).dropLast
  else leadSlash pre

/-- The tail of the non-empty-prefix branch of `_join_paths`, applied to the
already normalized prefix `q`. -/
def joinCore (q path : Str) : Str :=
  if path = ['/'] then q
  else if q = ['/'] then leadSlash path
  else q ++ leadSlash path

/-- Python `_join_paths`. -/
def _join_paths (pre path : Str) : Str :=
  if pre = [] then norm1 path else joinCore (normPre pre) path

/-- Does the string end with two slashes. -/
def endsTwoSlash (s : Str) : Bool :=
  endsWithSlash s && endsWithSlash s.dropLast

/-- A leaf path suited to composition: the root path, or a non-empty path
without a trailing slash. -/
def goodTail (L : Str) : Prop :=
  L = ['/'] ∨ (L ≠ [] ∧ endsWithSlash L = false)

instance (L : Str) : Decidable (goodTail L) := by
  unfold goodTail
  infer_instance

/-- A string in the canonical prefix form produced by the normalizations of
`_join_paths`: the root, or non-empty with a leading slash and no trailing
slash. -/
def Canon (q : Str) : Prop :=
  q = ['/'] ∨ (startsWithSlash q = true ∧ endsWithSlash q = false ∧ q ≠ [])

instance (q : Str) : Decidable (Canon q) := by
  unfold Canon
  infer_instance

/-- Composition of two canonical prefixes. -/
def mix (p q : Str) : Str :=
  if q = ['/'] then p else if p = ['/'] then q else p ++ q

/-- File-system paths are modelled as lists of path segments. -/
abbrev PathT := List Str

/-- Python `module.strip()`. -/
def trimStr (s : Str) : Str :=
  ((s.dropWhile isWS).reverse.dropWhile isWS).reverse

/-- Python `module.split("::")`: split at each non-overlapping occurrence of
the separator, keeping empty pieces. -/
def splitModule : Str → List Str
  | [] => [[]]
  | ':' :: ':' :: rest => [] :: splitModule rest
  | c :: rest =>
      match splitModule rest with
      | [] => [[c]]
      | h :: t => (c :: h) :: t

/-- Python `[part for part in module.strip().split("::") if part]`. -/
def partsOf (module : Str) : List Str :=
  (splitModule (trimStr module)).filter (fun p => p ≠ [])

/-- The `super` loop of `_resolve_module_file`: consume leading `super`
segments, moving the anchor directory up one level each time. -/
def dropSupers : List Str → PathT → List Str × PathT
  | [], b => ([], b)
  | p :: rest, b =>
      if p = "super".data then dropSupers rest b.dropLast
      else (p :: rest, b)

/-- The two candidate files `<dir>/<...all-but-last>/<last>.rs` and
`<dir>/<...all>/mod.rs` built by `_resolve_module_file`. -/
def candidatesFor (base : PathT) (parts : List Str) : List PathT :=
  [base ++ parts.dropLast ++ [parts.getLastD [] ++ ".rs".data],
   base ++ parts ++ ["mod.rs".data]]

/-- Steps 4-9 of `_resolve_module_file`: given the anchor directory and the
remaining segments, consume `super`/`self` segments and probe the candidate
files, anchor-relative first, then routes-root-relative. -/
def resolveFrom (fsE : PathT → Bool) (routes_root base0 : PathT)
    (parts0 : List Str) : Option PathT :=
  let sb := dropSupers parts0 base0
  let parts := sb.1.dropWhile (fun p => p = "self".data)
  let base := sb.2
  if parts = [] then none
  else
    (candidatesFor base parts ++
      (if base ≠ routes_root then candidatesFor routes_root parts else [])).find? fsE

/-- Python `_resolve_module_file`: the file system is abstracted as the
existence predicate `fsE`. -/
def _resolve_module_file (fsE : PathT → Bool) (routes_root current_file : PathT)
    (module : Str) : Option PathT :=
  if trimStr module = [] then none
  else if (partsOf module).take 2 = ["crate".data, "routes".data] then
    resolveFrom fsE routes_root routes_root ((partsOf module).drop 2)
  else if (partsOf module).head? = some "crate".data then none
  else resolveFrom fsE routes_root current_file.dropLast (partsOf module)

/-- Python `Endpoint` (frozen dataclass). -/
structure Endpoint where
  method : Str
  path : Str
deriving DecidableEq

/-- Python `NestCall` (frozen dataclass); `pfx` is the `prefix` field. -/
structure NestCall where
  pfx : Str
  modRef : Str
deriving DecidableEq

/-- Python `ParsedRouterFile`. -/
structure ParsedRouterFile where
  endpoints : Finset Endpoint
  nests : List NestCall

/-- The endpoints a file contributes directly: its declared endpoints with the
current prefix composed onto each path. -/
def baseImage (pfx : Str) (eps : Finset Endpoint) : Finset Endpoint :=
  eps.image (fun e => { method := e.method, path := _join_paths pfx e.path })

/-- Python `walk` inside `_extract_rust_endpoints`: files are drawn from a
finite type `F`, `parseF` is the (memoized) parse of a file and `resolveF`
combines the nest's module reference with `_resolve_module_file`.  The active
recursion stack is passed explicitly; a file already on it is not re-entered. -/
def walk {F : Type} [DecidableEq F] [Fintype F] (parseF : F → ParsedRouterFile)
    (resolveF : F → Str → Option F) (stack : List F) (f : F) (pfx : Str) :
    Finset Endpoint :=
  if h : f ∈ stack then ∅
  else
    (parseF f).nests.foldl
      (fun acc n =>
        match resolveF f n.modRef with
        | none => acc
        | some g => acc ∪ walk parseF resolveF (f :: stack) g (_join_paths pfx n.pfx))
      (baseImage pfx (parseF f).endpoints)
termination_by (Finset.univ \ stack.toFinset).card
decreasing_by
  apply Finset.card_lt_card
  rw [Finset.ssubset_def]
  constructor
  · intro x hx
    simp only [List.toFinset_cons, Finset.mem_sdiff, Finset.mem_univ, true_and,
      Finset.mem_insert] at hx ⊢
    exact fun hxs => hx (Or.inr hxs)
  · intro hcon
    have hf : f ∈ Finset.univ \ stack.toFinset := by
      simp only [Finset.mem_sdiff, Finset.mem_univ, true_and, List.mem_toFinset]
      exact h
    have hbad := hcon hf
    simp [List.toFinset_cons] at hbad

/-- The loop of `walk` over the nest list of file `f`, starting from the
accumulated endpoint set `acc`. -/
def nestAcc {F : Type} [DecidableEq F] [Fintype F] (parseF : F → ParsedRouterFile)
    (resolveF : F → Str → Option F) (stack : List F) (f : F) (pfx : Str)
    (acc : Finset Endpoint) (ns : List NestCall) : Finset Endpoint :=
  ns.foldl
    (fun acc n =>
      match resolveF f n.modRef with
      | none => acc
      | some g => acc ∪ walk parseF resolveF (f :: stack) g (_join_paths pfx n.pfx))
    acc

/-- A two-file delegation graph in which each file delegates to the other:
file 0 declares `GET /x` and nests file 1 under `/b`; file 1 declares `GET /y`
and nests file 0 back under the empty prefix. -/
def exParse : Fin 2 → ParsedRouterFile := fun f =>
  if f = 0 then
    { endpoints := {⟨"GET".data, "/x".data⟩}, nests := [⟨"/b".data, "b".data⟩] }
  else
    { endpoints := {⟨"GET".data, "/y".data⟩}, nests := [⟨[], "a".data⟩] }

/-- Resolution for the two-file cyclic graph: every module reference of a file
resolves to the other file. -/
def exResolve : Fin 2 → Str → Option (Fin 2) := fun f _ => some (1 - f)

/-- The endpoint set the walk of the cyclic two-file graph must produce. -/
def exExpected : Finset Endpoint :=
  {⟨"GET".data, "/x".data⟩, ⟨"GET".data, "/b/y".data⟩}

/-- Python `_percent`; the float arithmetic is modelled over the rationals. -/
def _percent (numerator denominator : ℕ) : ℚ :=
  if denominator = 0 then 100 else (numerator : ℚ) / (denominator : ℚ) * 100

lemma qualComma_zero (st : Nat × Bool × Bool) (c : Char) (cs : Str) :
    qualComma st (c :: cs) 0 = isTopComma st c := by
  simp [qualComma, scanState]

lemma qualComma_succ (st : Nat × Bool × Bool) (c : Char) (cs : Str) (j : Nat) :
    qualComma st (c :: cs) (j + 1) = qualComma (stateStep st c) cs j := by
  simp [qualComma, scanState, Nat.succ_lt_succ_iff]

lemma splitGo_some (cs : Str) : ∀ (st : Nat × Bool × Bool) (l r : Str),
    splitGo cs st = some (l, r) →
    ∃ i, qualComma st cs i = true ∧ (∀ j, j < i → qualComma st cs j = false) ∧
      l = cs.take i ∧ r = cs.drop (i + 1) := by
  induction cs with
  | nil => intro st l r h; simp [splitGo] at h
  | cons c cs ih =>
    intro st l r h
    simp only [splitGo] at h
    by_cases hc : isTopComma st c = true
    · rw [if_pos hc] at h
      simp only [Option.some.injEq, Prod.mk.injEq] at h
      refine ⟨0, by rwa [qualComma_zero], by omega, by simp [h.1.symm], by simp [h.2.symm]⟩
    · rw [if_neg hc] at h
      cases hsg : splitGo cs (stateStep st c) with
      | none => rw [hsg] at h; simp at h
      | some p =>
        obtain ⟨l', r'⟩ := p
        rw [hsg] at h
        simp only [Option.some.injEq, Prod.mk.injEq] at h
        obtain ⟨i, hq, hfirst, hl', hr'⟩ := ih _ _ _ hsg
        refine ⟨i + 1, by rwa [qualComma_succ], ?_, ?_, ?_⟩
        · intro j hj
          cases j with
          | zero => rw [qualComma_zero]; simpa using hc
          | succ j => rw [qualComma_succ]; exact hfirst j (by omega)
        · rw [← h.1, List.take_succ_cons, hl']
        · rw [← h.2, hr', List.drop_succ_cons]

lemma splitGo_none (cs : Str) : ∀ (st : Nat × Bool × Bool),
    splitGo cs st = none ↔ ∀ i, qualComma st cs i = false := by
  induction cs with
  | nil =>
    intro st
    simp [splitGo, qualComma]
  | cons c cs ih =>
    intro st
    simp only [splitGo]
    by_cases hc : isTopComma st c = true
    · rw [if_pos hc]
      constructor
      · intro h; simp at h
      · intro h
        have h0 := h 0
        rw [qualComma_zero, hc] at h0
        simp at h0
    · rw [if_neg hc]
      constructor
      · intro h i
        cases i with
        | zero => rw [qualComma_zero]; simpa using hc
        | succ j =>
          rw [qualComma_succ]
          cases hsg : splitGo cs (stateStep st c) with
          | none => exact (ih _).mp hsg j
          | some p => rw [hsg] at h; simp at h
      · intro h
        cases hsg : splitGo cs (stateStep st c) with
        | none => rfl
        | some p =>
          exfalso
          obtain ⟨l', r'⟩ := p
          obtain ⟨i, hq, _, _, _⟩ := splitGo_some cs _ l' r' hsg
          have hh := h (i + 1)
          rw [qualComma_succ] at hh
          rw [hh] at hq
          simp at hq

lemma qualComma_comma {st : Nat × Bool × Bool} {cs : Str} {i : Nat}
    (h : qualComma st cs i = true) : i < cs.length ∧ cs.getD i ' ' = ',' := by
  simp only [qualComma, isTopComma, Bool.and_eq_true, decide_eq_true_eq, beq_iff_eq] at h
  exact ⟨h.1, h.2.1.2⟩

lemma scanArgs_closed_eq_length : ∀ (cs : Str) (st : Nat × Bool × Bool),
    (scanArgs cs st).2 = false → (scanArgs cs st).1 = cs.length := by
  intro cs
  induction cs with
  | nil =>
    intro st h
    match st with
    | (0, i, e) => simp [scanArgs] at h
    | (d + 1, i, e) => simp [scanArgs]
  | cons c cs ih =>
    intro st h
    match st, h with
    | (0, i, e), h => simp [scanArgs] at h
    | (d + 1, i, e), h =>
      simp only [scanArgs] at h ⊢
      rw [ih _ h]
      simp

lemma extract_last_call (needle t : Str) (hn : needle ≠ [])
    (hend : t.drop (scanArgs t (1, false, false)).1 = []) :
    _extract_two_arg_calls (needle ++ t) needle =
      match _split_top_level_comma (t.take ((scanArgs t (1, false, false)).1 - 1)) with
      | some p => [p]
      | none => [] := by
  unfold _extract_two_arg_calls
  rw [extractGo.eq_def]
  rw [dif_neg hn, dif_neg (by simp [hn]),
    if_pos (List.isPrefixOf_iff_prefix.mpr (List.prefix_append needle t))]
  simp only [List.drop_left, hend]
  rw [extractGo.eq_def, dif_neg hn, dif_pos rfl]
  simp

/-- C1: `_split_top_level_comma` splits its argument at the first comma that
occurs at parenthesis nesting depth zero and outside any double-quoted string
literal (a backslash escaping the following character), and returns `none`
exactly when no such comma exists; in particular the scanned call
`.route("/a,b)", handler(x, y))` splits into the quoted path argument — whose
extracted literal is `/a,b)` — and the handler expression, not at the comma
inside the quoted string. -/
theorem split_top_level_comma_spec :
    (∀ args l r, _split_top_level_comma args = some (l, r) →
      ∃ i, qualB args i = true ∧ (∀ j, j < i → qualB args j = false) ∧
        l = args.take i ∧ r = args.drop (i + 1)) ∧
    (∀ args, _split_top_level_comma args = none ↔ ∀ i, qualB args i = false) ∧
    _extract_two_arg_calls ".route(\"/a,b)\", handler(x, y))".data ".route(".data =
      [("\"/a,b)\"".data, " handler(x, y)".data)] ∧
    _extract_string_literal "\"/a,b)\"".data = some "/a,b)".data := by
  refine ⟨?_, ?_, ?_, by decide⟩
  · intro args l r h
    unfold qualB
    exact splitGo_some args _ l r h
  · intro args
    unfold qualB
    exact splitGo_none args _
  · have heq : ".route(\"/a,b)\", handler(x, y))".data =
        ".route(".data ++ "\"/a,b)\", handler(x, y))".data := by decide
    rw [heq, extract_last_call _ _ (by decide) (by decide)]
    decide

/-- Witness for C1: the splitter's output on `f(a,b),c` is characterized by
the first qualifying comma index. -/
theorem split_top_level_comma_spec_witness :
    ∃ i, qualB "f(a,b),c".data i = true ∧
      (∀ j, j < i → qualB "f(a,b),c".data j = false) ∧
      "f(a,b)".data = ("f(a,b),c".data).take i ∧
      "c".data = ("f(a,b),c".data).drop (i + 1) :=
  split_top_level_comma_spec.1 "f(a,b),c".data "f(a,b)".data "c".data (by decide)

/-- C9: whenever `_split_top_level_comma` returns a pair `(l, r)`, the
concatenation `l ++ "," ++ r` reconstructs the argument string exactly, and no
index inside `l` holds a comma at parenthesis depth zero outside a string
literal (the split is at the first qualifying comma). -/
theorem split_top_level_comma_reconstruct (args l r : Str)
    (h : _split_top_level_comma args = some (l, r)) :
    l ++ ',' :: r = args ∧ ∀ j, j < l.length → qualB args j = false := by
  obtain ⟨i, hq, hfirst, hl, hr⟩ := splitGo_some args _ l r h
  obtain ⟨hilen, hcomma⟩ := qualComma_comma hq
  have hget : args[i] = ',' := by rw [← List.getD_eq_getElem args ' ' hilen, hcomma]
  constructor
  · subst hl hr
    conv_rhs => rw [← List.take_append_drop i args, List.drop_eq_getElem_cons hilen, hget]
  · intro j hj
    apply hfirst
    subst hl
    rw [List.length_take] at hj
    omega

/-- Witness for C9: reconstruction of `x,(y,z)` from its split. -/
theorem split_top_level_comma_reconstruct_witness :
    "x".data ++ ',' :: "(y,z)".data = "x,(y,z)".data ∧
      ∀ j, j < ("x".data).length → qualB "x,(y,z)".data j = false :=
  split_top_level_comma_reconstruct "x,(y,z)".data "x".data "(y,z)".data (by decide)

lemma startsWithSlash_cons (c : Char) (t : Str) :
    startsWithSlash (c :: t) = (c == '/') := rfl

lemma startsWithSlash_append {a : Str} (b : Str) (ha : a ≠ []) :
    startsWithSlash (a ++ b) = startsWithSlash a := by
  cases a with
  | nil => exact absurd rfl ha
  | cons c t => rfl

lemma endsWithSlash_concat (u : Str) (c : Char) :
    endsWithSlash (u ++ [c]) = (c == '/') := by
  simp [endsWithSlash, List.reverse_append, startsWithSlash]

lemma endsWithSlash_append {b : Str} (a : Str) (hb : b ≠ []) :
    endsWithSlash (a ++ b) = endsWithSlash b := by
  unfold endsWithSlash
  rw [List.reverse_append, startsWithSlash_append _ (by simpa using hb)]

lemma endsWithSlash_cons {t : Str} (c : Char) (ht : t ≠ []) :
    endsWithSlash (c :: t) = endsWithSlash t :=
  endsWithSlash_append [c] ht

lemma leadSlash_starts (p : Str) : startsWithSlash (leadSlash p) = true := by
  unfold leadSlash
  by_cases h : startsWithSlash p = true
  · rwa [if_pos h]
  · rw [if_neg h]; rfl

lemma leadSlash_of_starts {p : Str} (h : startsWithSlash p = true) : leadSlash p = p := by
  unfold leadSlash
  rw [if_pos h]

lemma leadSlash_idem (p : Str) : leadSlash (leadSlash p) = leadSlash p :=
  leadSlash_of_starts (leadSlash_starts p)

lemma leadSlash_ne_nil (p : Str) : leadSlash p ≠ [] := by
  unfold leadSlash
  by_cases h : startsWithSlash p = true
  · rw [if_pos h]
    intro hp
    rw [hp] at h
    simp [startsWithSlash] at h
  · rw [if_neg h]
    simp

lemma leadSlash_eq_slash {p : Str} : leadSlash p = ['/'] ↔ p = ['/'] ∨ p = [] := by
  unfold leadSlash
  by_cases h : startsWithSlash p = true
  · rw [if_pos h]
    constructor
    · exact fun hp => Or.inl hp
    · rintro (hp | hp)
      · exact hp
      · rw [hp] at h; simp [startsWithSlash] at h
  · rw [if_neg h]
    constructor
    · intro hp
      simp only [List.cons.injEq] at hp
      exact Or.inr hp.2
    · rintro (hp | hp)
      · rw [hp] at h; simp [startsWithSlash] at h
      · rw [hp]

lemma endsWithSlash_leadSlash {p : Str} (hp : p ≠ []) :
    endsWithSlash (leadSlash p) = endsWithSlash p := by
  unfold leadSlash
  by_cases h : startsWithSlash p = true
  · rw [if_pos h]
  · rw [if_neg h]
    exact endsWithSlash_cons '/' hp

lemma rstrip_concat_slash (u : Str) : rstripSlash (u ++ ['/']) = rstripSlash u := by
  unfold rstripSlash
  rw [List.reverse_append]
  simp [List.dropWhile]

lemma rstrip_not_ends {u : Str} (h : endsWithSlash u = false) : rstripSlash u = u := by
  unfold rstripSlash
  cases hr : u.reverse with
  | nil =>
    have : u = [] := by simpa using congrArg List.reverse hr
    simp [this]
  | cons c t =>
    rw [List.dropWhile_cons]
    unfold endsWithSlash at h
    rw [hr, startsWithSlash_cons] at h
    rw [if_neg (by simp [h]), ← hr, List.reverse_reverse]

lemma ends_iff_concat {s : Str} : endsWithSlash s = true ↔ ∃ u, s = u ++ ['/'] := by
  rcases List.eq_nil_or_concat s with h | ⟨L, b, h⟩
  · subst h
    simp [endsWithSlash, startsWithSlash]
  · subst h
    rw [List.concat_eq_append, endsWithSlash_concat]
    constructor
    · intro hb
      simp only [beq_iff_eq] at hb
      exact ⟨L, by rw [hb]⟩
    · rintro ⟨u, hu⟩
      have hb : b = '/' := by
        have h1 : (L ++ [b]).getLast? = some b := List.getLast?_concat L
        rw [hu, List.getLast?_concat u] at h1
        simpa using h1.symm
      simp [hb]

lemma ne_slash_of_append {a b : Str} (ha : a ≠ []) (hb : b ≠ []) : a ++ b ≠ ['/'] := by
  intro h
  have := congrArg List.length h
  simp only [List.length_append, List.length_cons, List.length_nil] at this
  have h1 : 0 < a.length := List.length_pos.mpr ha
  have h2 : 0 < b.length := List.length_pos.mpr hb
  omega

lemma canon_slash : Canon ['/'] := Or.inl rfl

lemma canon_ne_nil {q : Str} (h : Canon q) : q ≠ [] := by
  rcases h with h | ⟨_, _, h⟩
  · rw [h]; simp
  · exact h

lemma canon_starts {q : Str} (h : Canon q) : startsWithSlash q = true := by
  rcases h with h | ⟨h1, _, _⟩
  · rw [h]; rfl
  · exact h1

lemma normAux {P : Str} (h2 : endsTwoSlash P = false)
    (hcond : leadSlash P ≠ ['/'] ∧ endsWithSlash (leadSlash P) = true) :
    ∃ u, leadSlash P = u ++ ['/'] ∧ u ≠ [] ∧ startsWithSlash u = true ∧
      endsWithSlash u = false := by
  obtain ⟨u, hu⟩ := ends_iff_concat.mp hcond.2
  have hune : u ≠ [] := by
    intro h
    rw [h] at hu
    exact hcond.1 (by simpa using hu)
  have hustart : startsWithSlash u = true := by
    have := leadSlash_starts P
    rw [hu, startsWithSlash_append _ hune] at this
    exact this
  refine ⟨u, hu, hune, hustart, ?_⟩
  unfold endsTwoSlash at h2
  by_cases hst : startsWithSlash P = true
  · -- leadSlash P = P
    rw [leadSlash_of_starts hst] at hu
    rw [Bool.and_eq_false_iff] at h2
    rcases h2 with h2 | h2
    · rw [hu, endsWithSlash_concat] at h2
      simp at h2
    · rw [hu, List.dropLast_concat] at h2
      exact h2
  · -- leadSlash P = '/' :: P
    have hlP : leadSlash P = '/' :: P := by
      unfold leadSlash
      rw [if_neg hst]
    have hPne : P ≠ [] := by
      intro h
      subst h
      exact hcond.1 hlP
    rcases List.eq_nil_or_concat P with h | ⟨v, b, h⟩
    · exact absurd h hPne
    · rw [List.concat_eq_append] at h
      have hb : b = '/' := by
        have hePt : endsWithSlash P = true := by
          have := hcond.2
          rwa [endsWithSlash_leadSlash hPne] at this
        rw [h, endsWithSlash_concat] at hePt
        simpa using hePt
      subst hb
      -- u = dropLast (leadSlash P)
      have huu : u = '/' :: v := by
        have h1 : u = (leadSlash P).dropLast := by rw [hu, List.dropLast_concat]
        rw [hlP, h, show '/' :: (v ++ ['/']) = ('/' :: v) ++ ['/'] from rfl,
          List.dropLast_concat] at h1
        exact h1
      have hvne : v ≠ [] := by
        intro hv
        rw [hv] at huu h
        -- P = ['/'] contradicts ¬ startsWithSlash P
        rw [h] at hst
        simp [startsWithSlash] at hst
      rw [huu, endsWithSlash_cons _ hvne]
      rw [Bool.and_eq_false_iff] at h2
      rcases h2 with h2 | h2
      · rw [h, endsWithSlash_concat] at h2
        simp at h2
      · rw [h, List.dropLast_concat] at h2
        exact h2

lemma normPre_canon {P : Str} (h2 : endsTwoSlash P = false) : Canon (normPre P) := by
  unfold normPre
  by_cases hcond : leadSlash P ≠ ['/'] ∧ endsWithSlash (leadSlash P) = true
  · rw [if_pos hcond]
    obtain ⟨u, ha, hune, hustart, huend⟩ := normAux h2 hcond
    rw [ha, List.dropLast_concat]
    exact Or.inr ⟨hustart, huend, hune⟩
  · rw [if_neg hcond]
    push_neg at hcond
    by_cases hsl : leadSlash P = ['/']
    · exact Or.inl hsl
    · exact Or.inr ⟨leadSlash_starts P, by simpa using hcond hsl, leadSlash_ne_nil P⟩

lemma norm1_eq_normPre {P : Str} (hP : P ≠ []) (h2 : endsTwoSlash P = false) :
    norm1 P = normPre P := by
  unfold norm1 normPre
  rw [if_neg hP]
  by_cases hcond : leadSlash P ≠ ['/'] ∧ endsWithSlash (leadSlash P) = true
  · rw [if_pos hcond, if_pos hcond]
    obtain ⟨u, ha, hune, hustart, huend⟩ := normAux h2 hcond
    rw [ha, List.dropLast_concat, rstrip_concat_slash, rstrip_not_ends huend]
  · rw [if_neg hcond, if_neg hcond]

lemma normPre_id {q : Str} (h : Canon q) : normPre q = q := by
  unfold normPre
  rw [leadSlash_of_starts (canon_starts h)]
  rcases h with h | ⟨_, h2, _⟩
  · rw [if_neg]
    simp [h]
  · rw [if_neg]
    simp [h2]

lemma norm1_id {q : Str} (h : Canon q) : norm1 q = q := by
  unfold norm1
  rw [if_neg (canon_ne_nil h), leadSlash_of_starts (canon_starts h)]
  rcases h with h | ⟨_, h2, _⟩
  · rw [if_neg]
    simp [h]
  · rw [if_neg]
    simp [h2]

lemma goodTail_ne_nil {L : Str} (hL : goodTail L) : L ≠ [] := by
  rcases hL with h | ⟨h, _⟩
  · rw [h]; simp
  · exact h

lemma goodTail_ends {L : Str} (hL : goodTail L) (hne : L ≠ ['/']) :
    endsWithSlash L = false := by
  rcases hL with h | ⟨_, h⟩
  · exact absurd h hne
  · exact h

lemma goodTail_norm1 {L : Str} (hL : goodTail L) (hne : L ≠ ['/']) :
    norm1 L = leadSlash L := by
  unfold norm1
  rw [if_neg (goodTail_ne_nil hL)]
  rw [if_neg]
  rw [endsWithSlash_leadSlash (goodTail_ne_nil hL)]
  simp [goodTail_ends hL hne]

lemma leadSlash_ne_slash_of {L : Str} (hne : L ≠ []) (hsl : L ≠ ['/']) :
    leadSlash L ≠ ['/'] := by
  intro h
  rcases leadSlash_eq_slash.mp h with h | h
  · exact hsl h
  · exact hne h

lemma joinCore_root_path (q : Str) : joinCore q ['/'] = q := by
  unfold joinCore
  rw [if_pos rfl]

lemma joinCore_slash_pre {L : Str} (h : L ≠ ['/']) : joinCore ['/'] L = leadSlash L := by
  unfold joinCore
  rw [if_neg h, if_pos rfl]

lemma joinCore_app {q L : Str} (h : L ≠ ['/']) (hq : q ≠ ['/']) :
    joinCore q L = q ++ leadSlash L := by
  unfold joinCore
  rw [if_neg h, if_neg hq]

lemma joinCore_ne_nil {q : Str} (hq : q ≠ []) (L : Str) : joinCore q L ≠ [] := by
  unfold joinCore
  by_cases h1 : L = ['/']
  · rw [if_pos h1]; exact hq
  · rw [if_neg h1]
    by_cases h2 : q = ['/']
    · rw [if_pos h2]; exact leadSlash_ne_nil L
    · rw [if_neg h2]
      simp [hq]

lemma canon_joinCore {q L : Str} (hq : Canon q) (hL : goodTail L) :
    Canon (joinCore q L) := by
  by_cases hL1 : L = ['/']
  · rw [hL1, joinCore_root_path]; exact hq
  · have hLne := goodTail_ne_nil hL
    have hLend := goodTail_ends hL hL1
    have hxstart := leadSlash_starts L
    have hxend : endsWithSlash (leadSlash L) = false := by
      rw [endsWithSlash_leadSlash hLne]; exact hLend
    have hxne := leadSlash_ne_nil L
    by_cases hq1 : q = ['/']
    · rw [hq1, joinCore_slash_pre hL1]
      exact Or.inr ⟨hxstart, hxend, hxne⟩
    · rw [joinCore_app hL1 hq1]
      refine Or.inr ⟨?_, ?_, ?_⟩
      · rw [startsWithSlash_append _ (canon_ne_nil hq)]
        exact canon_starts hq
      · rw [endsWithSlash_append _ hxne]
        exact hxend
      · simp [canon_ne_nil hq]

lemma joinCore_leadSlash {L : Str} (hne : L ≠ []) (hsl : L ≠ ['/']) (q : Str) :
    joinCore q (leadSlash L) = joinCore q L := by
  have h1 : leadSlash L ≠ ['/'] := leadSlash_ne_slash_of hne hsl
  by_cases hq1 : q = ['/']
  · rw [hq1, joinCore_slash_pre h1, joinCore_slash_pre hsl, leadSlash_idem]
  · rw [joinCore_app h1 hq1, joinCore_app hsl hq1, leadSlash_idem]

lemma norm1_eq_joinCore_root {L : Str} (hL : goodTail L) :
    norm1 L = joinCore ['/'] L := by
  by_cases hL1 : L = ['/']
  · rw [hL1, joinCore_root_path]
    decide
  · rw [goodTail_norm1 hL hL1, joinCore_slash_pre hL1]

lemma mix_slash_left (q : Str) : mix ['/'] q = q := by
  unfold mix
  by_cases h : q = ['/']
  · rw [if_pos h, h]
  · rw [if_neg h, if_pos rfl]

lemma mix_slash_right (p : Str) : mix p ['/'] = p := by
  unfold mix
  rw [if_pos rfl]

lemma mix_app {p q : Str} (hq : q ≠ ['/']) (hp : p ≠ ['/']) : mix p q = p ++ q := by
  unfold mix
  rw [if_neg hq, if_neg hp]

lemma joinCore_mix {p q : Str} (hq : Canon q) : joinCore p q = mix p q := by
  by_cases hq1 : q = ['/']
  · rw [hq1, joinCore_root_path, mix_slash_right]
  · unfold joinCore mix
    rw [if_neg hq1, if_neg hq1, leadSlash_of_starts (canon_starts hq)]

lemma crux {p q L : Str} (hp : Canon p) (hq : Canon q) (hL : goodTail L) :
    joinCore p (joinCore q L) = joinCore (mix p q) L := by
  by_cases hL1 : L = ['/']
  · rw [hL1, joinCore_root_path, joinCore_root_path, joinCore_mix hq]
  · have hLne := goodTail_ne_nil hL
    have hx1 : leadSlash L ≠ ['/'] := leadSlash_ne_slash_of hLne hL1
    by_cases hq1 : q = ['/']
    · rw [hq1, joinCore_slash_pre hL1, mix_slash_right]
      exact joinCore_leadSlash hLne hL1 p
    · rw [joinCore_app hL1 hq1]
      have hqne := canon_ne_nil hq
      have hxne := leadSlash_ne_nil L
      have happne : q ++ leadSlash L ≠ ['/'] := ne_slash_of_append hqne hxne
      have hqx_starts : startsWithSlash (q ++ leadSlash L) = true := by
        rw [startsWithSlash_append _ hqne]
        exact canon_starts hq
      by_cases hp1 : p = ['/']
      · rw [hp1, joinCore_slash_pre happne, mix_slash_left,
          leadSlash_of_starts hqx_starts, joinCore_app hL1 hq1]
      · rw [joinCore_app happne hp1, leadSlash_of_starts hqx_starts,
          mix_app hq1 hp1]
        have hmixne : p ++ q ≠ ['/'] := ne_slash_of_append (canon_ne_nil hp) hqne
        rw [joinCore_app hL1 hmixne, List.append_assoc]

lemma normPre_leadSlash (P : Str) : normPre (leadSlash P) = normPre P := by
  unfold normPre
  rw [leadSlash_idem]

lemma normPre_joinCore {p P2 : Str} (hp : Canon p) (hP2ne : P2 ≠ [])
    (h2 : endsTwoSlash P2 = false) :
    normPre (joinCore p P2) = mix p (normPre P2) := by
  by_cases hP21 : P2 = ['/']
  · rw [hP21, joinCore_root_path, normPre_id hp]
    have : normPre ['/'] = ['/'] := by decide
    rw [this, mix_slash_right]
  · have hx1 : leadSlash P2 ≠ ['/'] := leadSlash_ne_slash_of hP2ne hP21
    by_cases hp1 : p = ['/']
    · rw [hp1, joinCore_slash_pre hP21, normPre_leadSlash, mix_slash_left]
    · rw [joinCore_app hP21 hp1]
      have hpne := canon_ne_nil hp
      have hxne := leadSlash_ne_nil P2
      have hstart : startsWithSlash (p ++ leadSlash P2) = true := by
        rw [startsWithSlash_append _ hpne]
        exact canon_starts hp
      by_cases hends : endsWithSlash (leadSlash P2) = true
      · obtain ⟨u, ha, hune, hustart, huend⟩ := normAux h2 ⟨hx1, hends⟩
        have hq_eq : normPre P2 = u := by
          unfold normPre
          rw [if_pos ⟨hx1, hends⟩, ha, List.dropLast_concat]
        have hu_ne : u ≠ ['/'] := by
          intro h
          rw [h] at huend
          simp [endsWithSlash, startsWithSlash] at huend
        rw [hq_eq, mix_app hu_ne hp1, ha]
        unfold normPre
        have hstart2 : startsWithSlash (p ++ (u ++ ['/'])) = true := by
          rw [startsWithSlash_append _ hpne]
          exact canon_starts hp
        rw [leadSlash_of_starts hstart2]
        have hcond : p ++ (u ++ ['/']) ≠ ['/'] ∧
            endsWithSlash (p ++ (u ++ ['/'])) = true := by
          constructor
          · exact ne_slash_of_append hpne (by simp)
          · rw [← List.append_assoc, endsWithSlash_concat]
            simp
        rw [if_pos hcond, ← List.append_assoc, List.dropLast_concat]
      · have hq_eq : normPre P2 = leadSlash P2 := by
          unfold normPre
          rw [if_neg]
          simp [hends]
        rw [hq_eq, mix_app hx1 hp1]
        unfold normPre
        rw [leadSlash_of_starts hstart]
        rw [if_neg]
        rw [endsWithSlash_append _ hxne]
        simp [hends]

lemma normPre_concat_slash {p : Str} (hp : Canon p) (hp1 : p ≠ ['/']) :
    normPre (p ++ ['/']) = p := by
  unfold normPre
  have hst : startsWithSlash (p ++ ['/']) = true := by
    rw [startsWithSlash_append _ (canon_ne_nil hp)]
    exact canon_starts hp
  rw [leadSlash_of_starts hst]
  rw [if_pos ⟨ne_slash_of_append (canon_ne_nil hp) (by simp),
    by rw [endsWithSlash_concat]; simp⟩]
  rw [List.dropLast_concat]

lemma join_empty_pre (path : Str) : _join_paths [] path = norm1 path := by
  unfold _join_paths
  rw [if_pos rfl]

lemma join_ne_pre {pre : Str} (h : pre ≠ []) (path : Str) :
    _join_paths pre path = joinCore (normPre pre) path := by
  unfold _join_paths
  rw [if_neg h]

theorem join_paths_assoc (P1 P2 L : Str) (h1 : endsTwoSlash P1 = false)
    (h2 : endsTwoSlash P2 = false) (hL : goodTail L) :
    _join_paths P1 (_join_paths P2 L) = _join_paths (_join_paths P1 P2) L := by
  by_cases hP1 : P1 = []
  · subst hP1
    by_cases hP2 : P2 = []
    · subst hP2
      rw [join_empty_pre, join_empty_pre, join_empty_pre]
      have hn : norm1 ([] : Str) = ['/'] := by decide
      rw [hn, join_ne_pre (by simp : (['/'] : Str) ≠ []), normPre_id canon_slash]
      rw [norm1_eq_joinCore_root hL, norm1_id (canon_joinCore canon_slash hL)]
    · have hqc := normPre_canon h2
      rw [join_empty_pre, join_ne_pre hP2, join_empty_pre,
        norm1_id (canon_joinCore hqc hL), norm1_eq_normPre hP2 h2,
        join_ne_pre (canon_ne_nil hqc), normPre_id hqc]
  · have hpc := normPre_canon h1
    by_cases hP2 : P2 = []
    · subst hP2
      rw [join_empty_pre, join_ne_pre hP1, join_ne_pre hP1]
      have hjne : joinCore (normPre P1) [] ≠ [] := joinCore_ne_nil (canon_ne_nil hpc) []
      rw [join_ne_pre hjne]
      have hstep : normPre (joinCore (normPre P1) []) = normPre P1 := by
        by_cases hp1 : normPre P1 = ['/']
        · rw [hp1, joinCore_slash_pre (by simp)]
          decide
        · rw [joinCore_app (by simp) hp1]
          have hl : leadSlash ([] : Str) = ['/'] := by decide
          rw [hl, normPre_concat_slash hpc hp1]
      rw [hstep]
      by_cases hL1 : L = ['/']
      · rw [hL1]
        have hnr : norm1 (['/'] : Str) = ['/'] := by decide
        rw [hnr]
      · rw [goodTail_norm1 hL hL1, joinCore_leadSlash (goodTail_ne_nil hL) hL1]
    · have hqc := normPre_canon h2
      rw [join_ne_pre hP2, join_ne_pre hP1, join_ne_pre hP1]
      have hjne : joinCore (normPre P1) P2 ≠ [] := joinCore_ne_nil (canon_ne_nil hpc) P2
      rw [join_ne_pre hjne, normPre_joinCore hpc hP2 h2]
      exact crux hpc hqc hL

lemma rstrip_decomp (p : Str) : ∃ t, p = rstripSlash p ++ t := by
  refine ⟨(p.reverse.takeWhile (fun c => c == '/')).reverse, ?_⟩
  unfold rstripSlash
  calc p = p.reverse.reverse := (List.reverse_reverse p).symm
  _ = (p.reverse.takeWhile (fun c => c == '/') ++
        p.reverse.dropWhile (fun c => c == '/')).reverse := by
      rw [List.takeWhile_append_dropWhile]
  _ = (p.reverse.dropWhile (fun c => c == '/')).reverse ++
        (p.reverse.takeWhile (fun c => c == '/')).reverse := by
      rw [List.reverse_append]

lemma normPre_output (pre : Str) :
    normPre pre ≠ [] ∧ startsWithSlash (normPre pre) = true := by
  unfold normPre
  by_cases hcond : leadSlash pre ≠ ['/'] ∧ endsWithSlash (leadSlash pre) = true
  · rw [if_pos hcond]
    obtain ⟨u, hu⟩ := ends_iff_concat.mp hcond.2
    have hune : u ≠ [] := by
      intro h
      rw [h] at hu
      exact hcond.1 (by simpa using hu)
    have hustart : startsWithSlash u = true := by
      have hs := leadSlash_starts pre
      rw [hu, startsWithSlash_append _ hune] at hs
      exact hs
    rw [hu, List.dropLast_concat]
    exact ⟨hune, hustart⟩
  · rw [if_neg hcond]
    exact ⟨leadSlash_ne_nil pre, leadSlash_starts pre⟩

lemma joinCore_output {q : Str} (hqne : q ≠ []) (hqs : startsWithSlash q = true)
    (path : Str) : joinCore q path ≠ [] ∧ startsWithSlash (joinCore q path) = true := by
  by_cases h1 : path = ['/']
  · rw [h1, joinCore_root_path]
    exact ⟨hqne, hqs⟩
  · by_cases h2 : q = ['/']
    · rw [h2, joinCore_slash_pre h1]
      exact ⟨leadSlash_ne_nil path, leadSlash_starts path⟩
    · rw [joinCore_app h1 h2]
      refine ⟨by simp [hqne], ?_⟩
      rw [startsWithSlash_append _ hqne]
      exact hqs

lemma allSlash_leadSlash (p : Str) :
    (leadSlash p).all (fun c => c == '/') = p.all (fun c => c == '/') := by
  unfold leadSlash
  by_cases h : startsWithSlash p = true
  · rw [if_pos h]
  · rw [if_neg h]
    simp

theorem join_paths_leading_slash (pre path : Str)
    (h : ¬(pre = [] ∧ 2 ≤ path.length ∧ path.all (fun c => c == '/') = true)) :
    _join_paths pre path ≠ [] ∧ startsWithSlash (_join_paths pre path) = true := by
  by_cases hpre : pre = []
  · subst hpre
    rw [join_empty_pre]
    unfold norm1
    by_cases hp0 : path = []
    · rw [if_pos hp0]
      exact ⟨by simp, rfl⟩
    · rw [if_neg hp0]
      by_cases hcond : leadSlash path ≠ ['/'] ∧ endsWithSlash (leadSlash path) = true
      · rw [if_pos hcond]
        have hAll : path.all (fun c => c == '/') = false := by
          cases hx : path.all (fun c => c == '/') with
          | false => rfl
          | true =>
            exfalso
            have hstart : startsWithSlash path = true := by
              cases path with
              | nil => exact absurd rfl hp0
              | cons c t =>
                rw [startsWithSlash_cons]
                simp only [List.all_cons, Bool.and_eq_true] at hx
                exact hx.1
            have hlp : leadSlash path = path := leadSlash_of_starts hstart
            have hlen : 2 ≤ path.length := by
              cases path with
              | nil => exact absurd rfl hp0
              | cons c t =>
                cases t with
                | nil =>
                  exfalso
                  have hc : c = '/' := by simpa using hx
                  subst hc
                  exact hcond.1 hlp
                | cons d t2 =>
                  simp only [List.length_cons]
                  omega
            exact h ⟨rfl, hlen, hx⟩
        have hAll2 : (leadSlash path).all (fun c => c == '/') = false := by
          rw [allSlash_leadSlash]
          exact hAll
        obtain ⟨t, ht⟩ := rstrip_decomp (leadSlash path)
        have hrne : rstripSlash (leadSlash path) ≠ [] := by
          intro hr
          unfold rstripSlash at hr
          have hdw : (leadSlash path).reverse.dropWhile (fun c => c == '/') = [] := by
            simpa using congrArg List.reverse hr
          rw [List.dropWhile_eq_nil_iff] at hdw
          have hat : (leadSlash path).all (fun c => c == '/') = true := by
            rw [List.all_eq_true]
            intro x hx
            exact hdw x (List.mem_reverse.mpr hx)
          rw [hat] at hAll2
          exact Bool.true_eq_false.mp hAll2
        refine ⟨hrne, ?_⟩
        have hs := leadSlash_starts path
        rw [ht, startsWithSlash_append _ hrne] at hs
        exact hs
      · rw [if_neg hcond]
        exact ⟨leadSlash_ne_nil path, leadSlash_starts path⟩
  · rw [join_ne_pre hpre]
    obtain ⟨h1, h2⟩ := normPre_output pre
    exact joinCore_output h1 h2 path

/-- Counterexample to C2 as stated: with prefixes P1 = "" and P2 = "" and
leaf path "a/", composing in two steps yields "/a" while composing the
prefixes first yields "/a/". -/
theorem join_paths_assoc_counterexample :
    _join_paths [] (_join_paths [] "a/".data) ≠
      _join_paths (_join_paths [] []) "a/".data := by
  decide

/-- C2 (amended): two-level path composition equals one-level composition with
the prefixes composed first, provided neither prefix ends with two slashes and
the leaf path is "/" or is non-empty without a trailing slash.  (The
counterexamples forcing the hypotheses: P1 = "", P2 = "", L = "a/";
P1 = "/a", P2 = "", L = ""; P1 = "", P2 = "b//", L = "/c";
P1 = "a//", P2 = "/", L = "b".) -/
theorem join_paths_assoc_amended (P1 P2 L : Str) (h1 : endsTwoSlash P1 = false)
    (h2 : endsTwoSlash P2 = false) (hL : goodTail L) :
    _join_paths P1 (_join_paths P2 L) = _join_paths (_join_paths P1 P2) L :=
  join_paths_assoc P1 P2 L h1 h2 hL

/-- Witness for C2: associativity at P1 = "/api", P2 = "v1", L = "users". -/
theorem join_paths_assoc_amended_witness :
    _join_paths "/api".data (_join_paths "v1".data "users".data) =
      _join_paths (_join_paths "/api".data "v1".data) "users".data :=
  join_paths_assoc_amended "/api".data "v1".data "users".data (by decide)
    (by decide) (by decide)

/-- Counterexample to C3 as stated: `_join_paths "/api/" "/users/"` keeps the
trailing slash of the path argument, so it is not `/api/users`. -/
theorem join_paths_examples_counterexample :
    _join_paths "/api/".data "/users/".data ≠ "/api/users".data := by
  decide

/-- C3 (amended): the four instances, with the fourth corrected to the value
the code produces: `_join_paths "/api/" "/users/"` = `/api/users/` (the
non-empty-prefix branch never strips a trailing slash from the path). -/
theorem join_paths_examples :
    _join_paths "".data "/".data = "/".data ∧
      _join_paths "".data "users".data = "/users".data ∧
      _join_paths "/api".data "/".data = "/api".data ∧
      _join_paths "/api/".data "/users/".data = "/api/users/".data := by
  decide

/-- Counterexample to C10 as stated: `_join_paths "" "//"` is the empty
string, which is neither non-empty nor slash-leading. -/
theorem join_paths_leading_slash_counterexample :
    _join_paths "".data "//".data = [] ∧
      startsWithSlash (_join_paths "".data "//".data) = false := by
  decide

/-- C10 (amended): for all inputs except an empty prefix combined with a path
consisting of two or more slashes only — where the result is the empty
string — the string returned by `_join_paths` is non-empty and begins
with "/". -/
theorem join_paths_leading_slash_amended (pre path : Str)
    (h : ¬(pre = [] ∧ 2 ≤ path.length ∧ path.all (fun c => c == '/') = true)) :
    _join_paths pre path ≠ [] ∧ startsWithSlash (_join_paths pre path) = true :=
  join_paths_leading_slash pre path h

/-- Witness for C10: a prefix and path that both lack leading slashes still
produce a non-empty slash-leading result. -/
theorem join_paths_leading_slash_amended_witness :
    _join_paths "api".data "users/".data ≠ [] ∧
      startsWithSlash (_join_paths "api".data "users/".data) = true :=
  join_paths_leading_slash_amended "api".data "users/".data (by decide)

/-- Counterexample to C5 as stated: in the text `.route("/a", x` the argument
list of the single `.route(` occurrence is unbalanced at end of input, yet the
occurrence is not skipped: it contributes the pair obtained by splitting the
argument text truncated by one character. -/
theorem extract_two_arg_calls_unbalanced_counterexample :
    (scanArgs "\"/a\", x".data (1, false, false)).2 = false ∧
      _extract_two_arg_calls ".route(\"/a\", x".data ".route(".data =
        [("\"/a\"".data, " ".data)] := by
  constructor
  · decide
  · have heq : ".route(\"/a\", x".data = ".route(".data ++ "\"/a\", x".data := by
      decide
    rw [heq, extract_last_call _ _ (by decide) (by decide)]
    decide

/-- C5 (amended): when the text is an occurrence of the call token followed by
an argument list whose parentheses stay unbalanced to the end of input, the
scanner raises no error and stops at end of input; the occurrence contributes
the split of the argument text with its final character removed when that
truncated text has a top-level comma, and no pair otherwise. -/
theorem extract_two_arg_calls_unbalanced (needle t : Str) (hn : needle ≠ [])
    (hub : (scanArgs t (1, false, false)).2 = false) :
    _extract_two_arg_calls (needle ++ t) needle =
      match _split_top_level_comma t.dropLast with
      | some p => [p]
      | none => [] := by
  have hlen := scanArgs_closed_eq_length t _ hub
  have h := extract_last_call needle t hn (by rw [hlen]; exact List.drop_length t)
  rwa [hlen, ← List.dropLast_eq_take] at h

/-- Witness for C5: the unbalanced tail `(` after `.nest(` contributes no
pair. -/
theorem extract_two_arg_calls_unbalanced_witness :
    _extract_two_arg_calls (".nest(".data ++ "(".data) ".nest(".data = [] := by
  rw [extract_two_arg_calls_unbalanced ".nest(".data "(".data (by decide)
    (by decide)]
  decide

lemma walk_unfold {F : Type} [DecidableEq F] [Fintype F]
    (parseF : F → ParsedRouterFile) (resolveF : F → Str → Option F)
    (stack : List F) (f : F) (pfx : Str) :
    walk parseF resolveF stack f pfx =
      if f ∈ stack then ∅
      else nestAcc parseF resolveF stack f pfx
        (baseImage pfx (parseF f).endpoints) (parseF f).nests := by
  rw [walk.eq_def]
  by_cases h : f ∈ stack
  · rw [dif_pos h, if_pos h]
  · rw [dif_neg h, if_neg h]
    rfl

lemma walk_of_mem {F : Type} [DecidableEq F] [Fintype F]
    (parseF : F → ParsedRouterFile) (resolveF : F → Str → Option F)
    {stack : List F} {f : F} {pfx : Str} (h : f ∈ stack) :
    walk parseF resolveF stack f pfx = ∅ := by
  rw [walk_unfold, if_pos h]

/-- C4: the router tree walker is total on every delegation graph (the
well-founded definition of `walk` is its termination proof); a file already on
the active recursion stack is not re-entered and contributes the empty set for
that edge, and on the concrete two-file graph whose files delegate to each
other the walk returns exactly the endpoints reachable before the cycle is
detected. -/
theorem walk_cycle_safe :
    (∀ {F : Type} [DecidableEq F] [Fintype F] (parseF : F → ParsedRouterFile)
        (resolveF : F → Str → Option F) (stack : List F) (f : F) (pfx : Str),
        f ∈ stack → walk parseF resolveF stack f pfx = ∅) ∧
      walk exParse exResolve [] 0 [] = exExpected := by
  constructor
  · intro F _ _ parseF resolveF stack f pfx h
    exact walk_of_mem parseF resolveF h
  · have h1 : walk exParse exResolve [0] 1 "/b".data = {⟨"GET".data, "/b/y".data⟩} := by
      rw [walk_unfold, if_neg (by decide)]
      show baseImage "/b".data (exParse 1).endpoints ∪
          walk exParse exResolve [1, 0] 0 (_join_paths "/b".data []) =
        {⟨"GET".data, "/b/y".data⟩}
      rw [walk_of_mem exParse exResolve (by decide : (0 : Fin 2) ∈ [1, 0])]
      decide
    rw [walk_unfold, if_neg (by decide)]
    show baseImage [] (exParse 0).endpoints ∪
        walk exParse exResolve [0] 1 (_join_paths [] "/b".data) = exExpected
    rw [show _join_paths [] "/b".data = "/b".data from by decide, h1]
    decide

/-- Witness for C4: a file on the active stack contributes the empty set. -/
theorem walk_cycle_safe_witness :
    walk exParse exResolve [0] 0 [] = ∅ :=
  walk_cycle_safe.1 exParse exResolve [0] 0 [] (by decide)

/-- C6: a delegation edge whose module reference does not resolve is skipped:
the edge contributes zero endpoints, no error is raised (the loop is total),
and the processing of the remaining sibling edges of the same file continues
from the same accumulated set; `nestAcc` is exactly the edge loop of `walk`. -/
theorem walk_skips_unresolved {F : Type} [DecidableEq F] [Fintype F]
    (parseF : F → ParsedRouterFile) (resolveF : F → Str → Option F)
    (stack : List F) (f : F) (pfx : Str) (acc : Finset Endpoint)
    (px m : Str) (rest : List NestCall) (hres : resolveF f m = none) :
    nestAcc parseF resolveF stack f pfx acc (⟨px, m⟩ :: rest) =
        nestAcc parseF resolveF stack f pfx acc rest ∧
      (f ∉ stack → walk parseF resolveF stack f pfx =
        nestAcc parseF resolveF stack f pfx
          (baseImage pfx (parseF f).endpoints) (parseF f).nests) := by
  constructor
  · show nestAcc parseF resolveF stack f pfx
        (match resolveF f m with
         | none => acc
         | some g => acc ∪ walk parseF resolveF (f :: stack) g (_join_paths pfx px))
        rest = nestAcc parseF resolveF stack f pfx acc rest
    rw [hres]
  · intro h
    rw [walk_unfold, if_neg h]

/-- Witness for C6: with a resolver that resolves nothing, the edge is
dropped. -/
theorem walk_skips_unresolved_witness :
    nestAcc exParse (fun _ _ => none) [] 0 [] ∅ [⟨"/b".data, "b".data⟩] =
        nestAcc exParse (fun _ _ => none) [] 0 [] ∅ [] ∧
      ((0 : Fin 2) ∉ ([] : List (Fin 2)) →
        walk exParse (fun _ _ => none) [] 0 [] =
          nestAcc exParse (fun _ _ => none) [] 0 []
            (baseImage [] (exParse 0).endpoints) (exParse 0).nests) :=
  walk_skips_unresolved exParse (fun _ _ => none) [] 0 [] ∅ "/b".data "b".data
    [] rfl

/-- C7: a module reference whose first two segments are `crate::routes` is
resolved with those two segments dropped and the anchor re-based at the routes
tree root instead of the current file directory, while a reference whose first
segment is `crate` but whose second segment is not `routes` resolves to none
for every file system (the disk is never consulted). -/
theorem resolve_module_file_crate (fsE : PathT → Bool)
    (routes_root current_file : PathT) (module : Str) :
    ((partsOf module).take 2 = ["crate".data, "routes".data] →
      _resolve_module_file fsE routes_root current_file module =
        resolveFrom fsE routes_root routes_root ((partsOf module).drop 2)) ∧
    ((partsOf module).head? = some "crate".data →
      (partsOf module).take 2 ≠ ["crate".data, "routes".data] →
      _resolve_module_file fsE routes_root current_file module = none) := by
  have htrim : trimStr module = [] → partsOf module = [] := by
    intro h
    unfold partsOf
    rw [h]
    rfl
  constructor
  · intro h
    unfold _resolve_module_file
    rw [if_neg, if_pos h]
    intro hT
    rw [htrim hT] at h
    simp at h
  · intro hhead htake
    unfold _resolve_module_file
    rw [if_neg, if_neg htake, if_pos hhead]
    intro hT
    rw [htrim hT] at hhead
    simp at hhead

/-- Witness for C7: both clauses at concrete module references, over the
all-false file system. -/
theorem resolve_module_file_crate_witness :
    (_resolve_module_file (fun _ => false) [] [] "crate::routes::users".data =
        resolveFrom (fun _ => false) [] []
          ((partsOf "crate::routes::users".data).drop 2)) ∧
      _resolve_module_file (fun _ => false) [] [] "crate::auth".data = none :=
  ⟨(resolve_module_file_crate (fun _ => false) [] []
      "crate::routes::users".data).1 (by decide),
    (resolve_module_file_crate (fun _ => false) [] [] "crate::auth".data).2
      (by decide) (by decide)⟩

/-- C8: the coverage percentage equals (covered / contract-size) × 100
whenever the contract endpoint set is non-empty and is exactly 100 whenever it
is empty, where covered is the size of the intersection with the resolved
router endpoint set (floats modelled over ℚ). -/
theorem percent_spec (contract router : Finset Endpoint) :
    (contract = ∅ → _percent ((contract ∩ router).card) contract.card = 100) ∧
    (contract ≠ ∅ →
      _percent ((contract ∩ router).card) contract.card =
        (((contract ∩ router).card : ℚ) / (contract.card : ℚ)) * 100) := by
  constructor
  · intro h
    subst h
    simp [_percent]
  · intro h
    unfold _percent
    rw [if_neg (by simpa [Finset.card_eq_zero] using h)]

/-- Witness for C8: a one-endpoint contract with an empty router set. -/
theorem percent_spec_witness :
    _percent ((({⟨"GET".data, "/a".data⟩} : Finset Endpoint) ∩ ∅).card)
        ({⟨"GET".data, "/a".data⟩} : Finset Endpoint).card =
      (((({⟨"GET".data, "/a".data⟩} : Finset Endpoint) ∩ ∅).card : ℚ) /
        ((({⟨"GET".data, "/a".data⟩} : Finset Endpoint).card : ℚ))) * 100 :=
  (percent_spec {⟨"GET".data, "/a".data⟩} ∅).2 (by decide)

end ContractCoverage
